import Mathlib

/-!
Shallow embedding of the bencoding decoder of this repository (src/lib.rs,
module bencoding_parser) and proofs about it.

Bytes are modelled as natural numbers (all actual byte values are below 256;
byte constants used below: 43 is the plus sign, 45 the minus sign, 48 to 57
the decimal digits, 58 the colon, 100 the letter d, 101 the letter e, 105 the
letter i, 108 the letter l).

The Rust source indexes slices and unwraps parse results without checks, so on
malformed input it aborts with a panic. A panic is modelled as the value none
for the two leaf routines, and as PRes.panic for the mutually recursive
routines, which thread an explicit fuel counter; PRes.outOfFuel marks fuel
exhaustion and is proved unreachable for the fuel supplied by the entry point.
-/

namespace BencodingParser

/-- Position of the first occurrence of byte c, mirroring the while scans of
the source such as: while data[separator_idx] != 58 { separator_idx += 1 }.
The value none models the out of bounds panic when the scan leaves the
buffer. -/
def findByte (c : Nat) : List Nat → Option Nat
  | [] => none
  | b :: bs => if b = c then some 0 else (findByte c bs).map (fun i => i + 1)

/-- Value of a sequence of ASCII decimal digit bytes, accumulated the way
str parse does. -/
def digitsVal (bs : List Nat) : Nat :=
  bs.foldl (fun a b => 10 * a + (b - 48)) 0

/-- The byte list is nonempty and consists only of ASCII decimal digits. -/
def digitsOk (bs : List Nat) : Bool :=
  !bs.isEmpty && bs.all (fun b => decide (48 ≤ b ∧ b ≤ 57))

/-- Rust str::parse for usize (64 bit): an optional plus sign followed by at
least one decimal digit, rejecting values of 2 to the 64 or more.  The value
none models the failing unwrap in the source. -/
def parseUsize (bs : List Nat) : Option Nat :=
  if bs.head? = some 43 then
    if digitsOk bs.tail = true ∧ digitsVal bs.tail < 2 ^ 64 then
      some (digitsVal bs.tail)
    else none
  else
    if digitsOk bs = true ∧ digitsVal bs < 2 ^ 64 then
      some (digitsVal bs)
    else none

/-- Rust str::parse for i64: an optional sign followed by at least one decimal
digit, within the i64 range.  The value none models the failing unwrap in the
source. -/
def parseI64 (bs : List Nat) : Option Int :=
  if bs.head? = some 45 then
    if digitsOk bs.tail = true ∧ digitsVal bs.tail ≤ 2 ^ 63 then
      some (-(digitsVal bs.tail : Int))
    else none
  else if bs.head? = some 43 then
    if digitsOk bs.tail = true ∧ digitsVal bs.tail ≤ 2 ^ 63 - 1 then
      some ((digitsVal bs.tail : Int))
    else none
  else
    if digitsOk bs = true ∧ digitsVal bs ≤ 2 ^ 63 - 1 then
      some ((digitsVal bs : Int))
    else none

/-- Embedding of decode_string from the source: scan for the first colon,
parse the bytes before it as a usize length, then take exactly that many raw
payload bytes.  Returns the payload and the remaining suffix; none models a
panic (scan running off the buffer, unparseable length field via the two
unwraps, or a declared length larger than the remaining buffer). -/
def decode_string (data : List Nat) : Option (List Nat × List Nat) :=
  match findByte 58 data with
  | none => none
  | some sep =>
    match parseUsize (data.take sep) with
    | none => none
    | some len =>
      if len ≤ (data.drop (sep + 1)).length then
        some ((data.drop (sep + 1)).take len, (data.drop (sep + 1)).drop len)
      else none

/-- Embedding of decode_integer from the source: skip the leading byte, scan
for the terminating letter e, parse the bytes between as an i64.  The
remainder starts just past the terminator; none models a panic. -/
def decode_integer (data : List Nat) : Option (Int × List Nat) :=
  match data with
  | [] => none
  | _ :: tail =>
    match findByte 101 tail with
    | none => none
    | some idx =>
      match parseI64 (tail.take idx) with
      | none => none
      | some v => some (v, tail.drop (idx + 1))

/-- Embedding of the BencodingValue enum of the source.  The Dict variant is
modelled as an association list; the HashMap of the source is observed only
through insert (which overwrites an existing binding) and key lookup, and
insertKV and lookupKV below implement exactly those semantics. -/
inductive BencodingValue : Type where
  | string : List Nat → BencodingValue
  | integer : Int → BencodingValue
  | dict : List (List Nat × BencodingValue) → BencodingValue
  | list : List BencodingValue → BencodingValue

/-- HashMap insert semantics on the association list: replace the binding in
place if the key is present, otherwise append the new binding. -/
def insertKV : List (List Nat × BencodingValue) → List Nat → BencodingValue →
    List (List Nat × BencodingValue)
  | [], k, v => [(k, v)]
  | (a, b) :: rest, k, v =>
    if a = k then (k, v) :: rest else (a, b) :: insertKV rest k v

/-- HashMap key lookup on the association list. -/
def lookupKV : List (List Nat × BencodingValue) → List Nat → Option BencodingValue
  | [], _ => none
  | (a, b) :: rest, k => if a = k then some b else lookupKV rest k

/-- Result of a fuelled recursive parsing routine: a value plus the remaining
suffix, a modelled panic, or fuel exhaustion. -/
inductive PRes (α : Type) : Type where
  | ok : α → List Nat → PRes α
  | panic : PRes α
  | outOfFuel : PRes α

mutual

/-- Embedding of decode_next from the source: dispatch on the first byte
(letter i for integers, l for lists, d for dictionaries, anything else is
handed to the string routine).  Reading the first byte of an empty buffer is
a panic. -/
def decode_next (fuel : Nat) (data : List Nat) : PRes BencodingValue :=
  match fuel, data with
  | 0, _ => .outOfFuel
  | _ + 1, [] => .panic
  | fuel + 1, b :: tail =>
    if b = 105 then
      match decode_integer (b :: tail) with
      | none => .panic
      | some (v, rest) => .ok (.integer v) rest
    else if b = 108 then
      match decode_list_loop fuel tail [] with
      | .ok l rest => .ok (.list l) rest
      | .panic => .panic
      | .outOfFuel => .outOfFuel
    else if b = 100 then
      match decode_dict_loop fuel tail [] with
      | .ok d rest => .ok (.dict d) rest
      | .panic => .panic
      | .outOfFuel => .outOfFuel
    else
      match decode_string (b :: tail) with
      | none => .panic
      | some (s, rest) => .ok (.string s) rest

/-- The loop inside decode_dict of the source, entered after the first byte
of the buffer has been skipped: stop when the next byte is the letter e
(which is left unconsumed, as in the source), otherwise parse a string key
and a value and insert the pair.  Reading the first byte of an empty buffer
is a panic. -/
def decode_dict_loop (fuel : Nat) (data : List Nat)
    (acc : List (List Nat × BencodingValue)) :
    PRes (List (List Nat × BencodingValue)) :=
  match fuel, data with
  | 0, _ => .outOfFuel
  | _ + 1, [] => .panic
  | fuel + 1, b :: tail =>
    if b = 101 then .ok acc (b :: tail)
    else
      match decode_string (b :: tail) with
      | none => .panic
      | some (key, rest1) =>
        match decode_next fuel rest1 with
        | .ok v rest2 => decode_dict_loop fuel rest2 (insertKV acc key v)
        | .panic => .panic
        | .outOfFuel => .outOfFuel

/-- The loop inside decode_list of the source, entered after the first byte
of the buffer has been skipped: stop when the next byte is the letter e
(left unconsumed, as in the source), otherwise parse one value and append
it. -/
def decode_list_loop (fuel : Nat) (data : List Nat) (acc : List BencodingValue) :
    PRes (List BencodingValue) :=
  match fuel, data with
  | 0, _ => .outOfFuel
  | _ + 1, [] => .panic
  | fuel + 1, b :: tail =>
    if b = 101 then .ok acc (b :: tail)
    else
      match decode_next fuel (b :: tail) with
      | .ok v rest => decode_list_loop fuel rest (acc ++ [v])
      | .panic => .panic
      | .outOfFuel => .outOfFuel

end

/-- Embedding of decode_dict from the source: unconditionally skip the first
byte (a panic on the empty buffer, since slicing from index one is out of
bounds there) and run the entry loop.  The first byte is never compared with
the letter d. -/
def decode_dict (fuel : Nat) (data : List Nat) :
    PRes (List (List Nat × BencodingValue)) :=
  match data with
  | [] => .panic
  | _ :: tail => decode_dict_loop fuel tail []

/-- Embedding of decode_list from the source: unconditionally skip the first
byte and run the element loop. -/
def decode_list (fuel : Nat) (data : List Nat) : PRes (List BencodingValue) :=
  match data with
  | [] => .panic
  | _ :: tail => decode_list_loop fuel tail []

/-- Embedding of the empty error enum BencodingError of the source: a type
with no constructors. -/
inductive BencodingError : Type

/-- Embedding of the Bencoding struct of the source: the one top level
dictionary. -/
structure Bencoding : Type where
  dict : List (List Nat × BencodingValue)

/-- Embedding of Bencoding::decode: run decode_dict on the whole buffer and
discard the returned remainder.  The fuel supplied here is proved sufficient
below (the outOfFuel branch is unreachable); none models a panic escaping the
call. -/
def Bencoding.decode (data : List Nat) : Option (Except BencodingError Bencoding) :=
  match decode_dict (2 * data.length + 2) data with
  | .ok d _ => some (.ok ⟨d⟩)
  | .panic => none
  | .outOfFuel => none

/-- Embedding of Bencoding::get: lookup of a top level key. -/
def Bencoding.get (b : Bencoding) (key : List Nat) : Option BencodingValue :=
  lookupKV b.dict key

/-- Decode a buffer and look up a top level key in the result: the shape of
every test of the source.  The outer layer reports whether decode returned at
all (none is a panic), the inner layer is the result of get. -/
def decodeGet (data key : List Nat) : Option (Option BencodingValue) :=
  match Bencoding.decode data with
  | none => none
  | some (.ok b) => some (b.get key)
  | some (.error e) => nomatch e

/-! ### List helpers -/

theorem take_len_app {α : Type} : ∀ (l r : List α), (l ++ r).take l.length = l
  | [], _ => rfl
  | a :: t, r => by simp [take_len_app t r]

theorem drop_len_app {α : Type} : ∀ (l r : List α), (l ++ r).drop l.length = r
  | [], _ => rfl
  | a :: t, r => by simp [drop_len_app t r]

theorem drop_len_succ_app {α : Type} (l : List α) (c : α) (r : List α) :
    (l ++ c :: r).drop (l.length + 1) = r := by
  have h1 : l ++ c :: r = (l ++ [c]) ++ r := by simp
  have h2 : l.length + 1 = (l ++ [c]).length := by simp
  rw [h1, h2, drop_len_app]

theorem findByte_app (c : Nat) (l r : List Nat) (hl : ∀ b ∈ l, b ≠ c) :
    findByte c (l ++ c :: r) = some l.length := by
  induction l with
  | nil => simp [findByte]
  | cons a t ih =>
    have ha : a ≠ c := hl a (by simp)
    have ih2 := ih (fun b hb => hl b (by simp [hb]))
    simp [findByte, if_neg ha, ih2]

theorem findByte_some_lt (c : Nat) :
    ∀ (l : List Nat) (i : Nat), findByte c l = some i → i < l.length := by
  intro l
  induction l with
  | nil => intro i h; simp [findByte] at h
  | cons a t ih =>
    intro i h
    rw [findByte] at h
    by_cases ha : a = c
    · rw [if_pos ha] at h
      injection h with h
      simp only [List.length_cons]
      omega
    · rw [if_neg ha] at h
      cases hft : findByte c t with
      | none => rw [hft] at h; simp at h
      | some j =>
        rw [hft] at h
        simp only [Option.map_some', Option.some.injEq] at h
        have := ih j hft
        simp only [List.length_cons]
        omega

/-! ### Decimal digit strings -/

/-- Big endian decimal digit bytes of a natural number, one division step per
unit of fuel. -/
def natDigitsAux : Nat → Nat → List Nat
  | 0, _ => []
  | fuel + 1, n =>
    if n = 0 then [] else natDigitsAux fuel (n / 10) ++ [n % 10 + 48]

/-- Big endian decimal digit bytes of a natural number, with a single 48
(the digit zero) for zero; the canonical decimal form, with no redundant
leading zero. -/
def natDigits (n : Nat) : List Nat :=
  if n = 0 then [48] else natDigitsAux n n

theorem digitsVal_app_singleton (l : List Nat) (d : Nat) :
    digitsVal (l ++ [d]) = 10 * digitsVal l + (d - 48) := by
  simp [digitsVal, List.foldl_append]

theorem natDigitsAux_spec :
    ∀ (fuel n : Nat), n ≤ fuel →
      digitsVal (natDigitsAux fuel n) = n ∧
      ∀ b ∈ natDigitsAux fuel n, 48 ≤ b ∧ b ≤ 57 := by
  intro fuel
  induction fuel with
  | zero =>
    intro n hn
    have : n = 0 := by omega
    subst this
    simp [natDigitsAux, digitsVal]
  | succ f ih =>
    intro n hn
    by_cases h0 : n = 0
    · subst h0; simp [natDigitsAux, digitsVal]
    · have hdiv : n / 10 ≤ f := by omega
      obtain ⟨hv, hb⟩ := ih (n / 10) hdiv
      simp only [natDigitsAux, if_neg h0]
      constructor
      · rw [digitsVal_app_singleton, hv]
        omega
      · intro b hbmem
        rcases List.mem_append.mp hbmem with h | h
        · exact hb b h
        · simp only [List.mem_singleton] at h
          omega

theorem natDigits_val (n : Nat) : digitsVal (natDigits n) = n := by
  by_cases h0 : n = 0
  · subst h0; simp [natDigits, digitsVal]
  · simp only [natDigits, if_neg h0]
    exact (natDigitsAux_spec n n le_rfl).1

theorem natDigits_bounds (n : Nat) : ∀ b ∈ natDigits n, 48 ≤ b ∧ b ≤ 57 := by
  by_cases h0 : n = 0
  · subst h0; simp [natDigits]
  · simp only [natDigits, if_neg h0]
    exact (natDigitsAux_spec n n le_rfl).2

theorem natDigits_ne_nil (n : Nat) : natDigits n ≠ [] := by
  by_cases h0 : n = 0
  · subst h0; simp [natDigits]
  · simp only [natDigits, if_neg h0]
    obtain ⟨f, hf⟩ : ∃ f, n = f + 1 := ⟨n - 1, by omega⟩
    subst hf
    simp only [natDigitsAux, if_neg h0]
    simp

theorem natDigits_head (n : Nat) :
    ∃ b t, natDigits n = b :: t ∧ 48 ≤ b ∧ b ≤ 57 := by
  cases h : natDigits n with
  | nil => exact absurd h (natDigits_ne_nil n)
  | cons b t =>
    have hb := natDigits_bounds n b (by rw [h]; simp)
    exact ⟨b, t, rfl, hb.1, hb.2⟩

theorem digitsOk_natDigits (n : Nat) : digitsOk (natDigits n) = true := by
  obtain ⟨b, t, hbt, hb1, hb2⟩ := natDigits_head n
  rw [digitsOk, hbt]
  simp only [List.isEmpty_cons, Bool.not_false, Bool.true_and, List.all_eq_true]
  intro x hx
  exact decide_eq_true_eq.mpr (natDigits_bounds n x (by rw [hbt]; exact hx))

theorem parseUsize_natDigits (n : Nat) (hn : n < 2 ^ 64) :
    parseUsize (natDigits n) = some n := by
  obtain ⟨b, t, hbt, hb1, hb2⟩ := natDigits_head n
  have hhead : (natDigits n).head? ≠ some 43 := by
    rw [hbt]; simp; omega
  rw [parseUsize, if_neg hhead, if_pos]
  · rw [natDigits_val]
  · exact ⟨digitsOk_natDigits n, by rw [natDigits_val]; exact hn⟩

/-- Canonical decimal encoding of an i64 value: a minus sign for negative
values, then the canonical digits of the absolute value; zero is the single
digit zero, so the encoding never has a redundant leading zero and never
produces the form minus zero. -/
def intDigits (i : Int) : List Nat :=
  if i < 0 then 45 :: natDigits i.natAbs else natDigits i.toNat

theorem parseI64_intDigits (i : Int) (hlo : -(2 ^ 63) ≤ i) (hhi : i < 2 ^ 63) :
    parseI64 (intDigits i) = some i := by
  by_cases hneg : i < 0
  · simp only [intDigits, if_pos hneg]
    have hhead : ((45 : Nat) :: natDigits i.natAbs).head? = some 45 := rfl
    rw [parseI64, if_pos hhead]
    have htail : ((45 : Nat) :: natDigits i.natAbs).tail = natDigits i.natAbs := rfl
    rw [htail, if_pos]
    · rw [natDigits_val]
      congr 1
      omega
    · refine ⟨digitsOk_natDigits _, ?_⟩
      rw [natDigits_val]
      omega
  · simp only [intDigits, if_neg hneg]
    obtain ⟨b, t, hbt, hb1, hb2⟩ := natDigits_head i.toNat
    have hh45 : (natDigits i.toNat).head? ≠ some 45 := by rw [hbt]; simp; omega
    have hh43 : (natDigits i.toNat).head? ≠ some 43 := by rw [hbt]; simp; omega
    rw [parseI64, if_neg hh45, if_neg hh43, if_pos]
    · rw [natDigits_val]
      congr 1
      omega
    · refine ⟨digitsOk_natDigits _, ?_⟩
      rw [natDigits_val]
      omega

/-- The wire form of a length prefixed byte string: decimal length, colon,
raw payload. -/
def strEnc (s : List Nat) : List Nat :=
  natDigits s.length ++ [58] ++ s

/-! ### The wire grammar of the specification

Modelled from the spec: the grammar of complete well formed encodings, written
down from the grammar sections of the specification (string form
length colon payload, integer form i digits e with no redundant leading zero
and no minus zero, list form l values e, dictionary form d pairs e).  The
numeric side conditions keep lengths within usize and values within i64, the
ranges the data model of the specification prescribes.  Tag 0 stands for one
complete value encoding, tag 1 for the body of a dictionary (the
concatenated key and value encodings, without the enclosing d and e), tag 2
for the body of a list (the concatenated element encodings, without the
enclosing l and e). -/
inductive Enc : Nat → List Nat → Prop where
  | str : ∀ s : List Nat, s.length < 2 ^ 64 → Enc 0 (strEnc s)
  | int : ∀ i : Int, -(2 ^ 63) ≤ i → i < 2 ^ 63 →
      Enc 0 (105 :: intDigits i ++ [101])
  | list : ∀ body : List Nat, Enc 2 body → Enc 0 (108 :: body ++ [101])
  | dict : ∀ body : List Nat, Enc 1 body → Enc 0 (100 :: body ++ [101])
  | enil : Enc 1 []
  | econs : ∀ (k venc rest : List Nat), k.length < 2 ^ 64 →
      Enc 0 venc → Enc 1 rest → Enc 1 (strEnc k ++ venc ++ rest)
  | lnil : Enc 2 []
  | lcons : ∀ venc rest : List Nat, Enc 0 venc → Enc 2 rest →
      Enc 2 (venc ++ rest)

/-! ### Flat values and their encodings -/

/-- A value the decoder maps one wire value onto without recursion: a byte
string of length below 2 to the 64, or an integer in the i64 range. -/
def FlatOk : BencodingValue → Prop
  | .string s => s.length < 2 ^ 64
  | .integer i => -(2 ^ 63) ≤ i ∧ i < 2 ^ 63
  | .dict _ => False
  | .list _ => False

/-- Wire encoding of a flat value (meaningless for the container variants,
which FlatOk rules out). -/
def flatItemEnc : BencodingValue → List Nat
  | .string s => strEnc s
  | .integer i => 105 :: intDigits i ++ [101]
  | .dict _ => []
  | .list _ => []

/-- Concatenation of a list of byte lists. -/
def concatAll : List (List Nat) → List Nat
  | [] => []
  | l :: ls => l ++ concatAll ls

/-! ### Specifications of the two leaf parsers on well formed input -/

theorem strEnc_head (s : List Nat) :
    ∃ b t, strEnc s = b :: t ∧ 48 ≤ b ∧ b ≤ 57 := by
  obtain ⟨b, t, hbt, hb1, hb2⟩ := natDigits_head s.length
  exact ⟨b, t ++ [58] ++ s, by simp [strEnc, hbt], hb1, hb2⟩

theorem strEnc_len (s : List Nat) : 2 ≤ (strEnc s).length := by
  obtain ⟨b, t, hbt, _, _⟩ := natDigits_head s.length
  rw [strEnc, hbt]
  simp only [List.append_assoc, List.cons_append, List.nil_append, List.length_cons,
    List.length_append]
  omega

theorem decode_string_spec (s rest : List Nat) (hs : s.length < 2 ^ 64) :
    decode_string (strEnc s ++ rest) = some (s, rest) := by
  have heq : strEnc s ++ rest = natDigits s.length ++ 58 :: (s ++ rest) := by
    simp [strEnc]
  have hfind : findByte 58 (natDigits s.length ++ 58 :: (s ++ rest)) =
      some (natDigits s.length).length := by
    refine findByte_app 58 _ _ ?_
    intro b hb
    have := natDigits_bounds s.length b hb
    omega
  rw [heq, decode_string]
  simp only [hfind, take_len_app, parseUsize_natDigits s.length hs, drop_len_succ_app]
  rw [if_pos (by simp), drop_len_app]

theorem decode_integer_spec (i : Int) (rest : List Nat)
    (hlo : -(2 ^ 63) ≤ i) (hhi : i < 2 ^ 63) :
    decode_integer ((105 :: intDigits i ++ [101]) ++ rest) = some (i, rest) := by
  have hbounds : ∀ b ∈ intDigits i, b ≤ 57 := by
    intro b hb
    by_cases hneg : i < 0
    · simp only [intDigits, if_pos hneg, List.mem_cons] at hb
      rcases hb with rfl | hb
      · omega
      · exact (natDigits_bounds _ b hb).2
    · simp only [intDigits, if_neg hneg] at hb
      exact (natDigits_bounds _ b hb).2
  have heq : (105 :: intDigits i ++ [101]) ++ rest =
      105 :: (intDigits i ++ 101 :: rest) := by simp
  have hfind : findByte 101 (intDigits i ++ 101 :: rest) = some (intDigits i).length := by
    refine findByte_app 101 _ _ ?_
    intro b hb
    have := hbounds b hb
    omega
  rw [heq]
  simp only [decode_integer, hfind, take_len_app, parseI64_intDigits i hlo hhi,
    drop_len_succ_app]

theorem decode_next_flat (v : BencodingValue) (X : List Nat) (fuel : Nat)
    (hv : FlatOk v) (hfuel : 1 ≤ fuel) :
    decode_next fuel (flatItemEnc v ++ X) = PRes.ok v X := by
  obtain ⟨f, rfl⟩ : ∃ f, fuel = f + 1 := ⟨fuel - 1, by omega⟩
  cases v with
  | string s =>
    obtain ⟨b, t, hbt, hb1, hb2⟩ := strEnc_head s
    have hdata : flatItemEnc (.string s) ++ X = b :: (t ++ X) := by
      rw [show flatItemEnc (.string s) = strEnc s from rfl, hbt]
      simp
    rw [hdata]
    simp only [decode_next]
    rw [if_neg (by omega : ¬b = 105), if_neg (by omega : ¬b = 108),
      if_neg (by omega : ¬b = 100)]
    have hstr := decode_string_spec s X hv
    rw [hbt] at hstr
    simp only [List.cons_append] at hstr
    simp only [hstr]
  | integer i =>
    obtain ⟨hlo, hhi⟩ := hv
    have hdata : flatItemEnc (.integer i) ++ X = 105 :: (intDigits i ++ 101 :: X) := by
      simp [flatItemEnc]
    rw [hdata]
    simp only [decode_next]
    rw [if_pos trivial]
    have hint := decode_integer_spec i X hlo hhi
    have heq : (105 :: intDigits i ++ [101]) ++ X = 105 :: (intDigits i ++ 101 :: X) := by
      simp
    rw [heq] at hint
    rw [hint]
  | dict d => exact hv.elim
  | list l => exact hv.elim

/-! ### Adequacy of the decoder on well formed encodings

On a complete well formed value encoding followed by arbitrary further bytes,
the decoder returns a value and a remainder that depend only on the encoding.
A string or integer encoding is consumed in full.  A container encoding is
not: the source never consumes the terminating letter e of a list or
dictionary, so the remainder keeps a suffix of the encoding that starts with
that byte; the enclosing loop then stops at it.  The three predicates below
state this for one value, a dictionary body and a list body; fuel demands are
linear in the buffer length. -/

/-- Decoding one complete well formed value encoding: some value and some
remainder prefix, the prefix empty or starting with the letter e, both
independent of the bytes that follow the encoding. -/
def ValP (enc : List Nat) : Prop :=
  ∃ val s, (s = [] ∨ ∃ t, s = 101 :: t) ∧ (∃ b t, enc = b :: t ∧ b ≠ 101) ∧
    ∀ rest fuel, 2 * (enc.length + rest.length) + 1 ≤ fuel →
      decode_next fuel (enc ++ rest) = PRes.ok val (s ++ rest)

/-- Decoding the body of a well formed dictionary followed by its
terminator: the loop folds some sequence of key and value pairs into the
accumulator by insertKV, and the result and remainder prefix do not depend
on the bytes after the terminator. -/
def EntriesP (body : List Nat) : Prop :=
  ∃ (entrs : List (List Nat × BencodingValue)) (s : List Nat),
    (s = [] ∨ ∃ t, s = 101 :: t) ∧
    ∀ acc rest fuel, 2 * (body.length + rest.length) + 4 ≤ fuel →
      decode_dict_loop fuel (body ++ 101 :: rest) acc =
        PRes.ok (entrs.foldl (fun m kv => insertKV m kv.1 kv.2) acc) (s ++ 101 :: rest)

/-- Decoding the body of a well formed list followed by its terminator: the
loop appends some sequence of values to the accumulator in parse order. -/
def ElemsP (body : List Nat) : Prop :=
  ∃ (vals : List BencodingValue) (s : List Nat),
    (s = [] ∨ ∃ t, s = 101 :: t) ∧
    ∀ acc rest fuel, 2 * (body.length + rest.length) + 4 ≤ fuel →
      decode_list_loop fuel (body ++ 101 :: rest) acc =
        PRes.ok (acc ++ vals) (s ++ 101 :: rest)

/-- The adequacy statement matching each tag of the grammar. -/
def AdeqP : Nat → List Nat → Prop
  | 0, enc => ValP enc
  | 1, enc => EntriesP enc
  | _ + 2, enc => ElemsP enc

theorem valP_str (s : List Nat) (hs : s.length < 2 ^ 64) : ValP (strEnc s) := by
  obtain ⟨b, t, hbt, hb1, hb2⟩ := strEnc_head s
  refine ⟨.string s, [], Or.inl rfl, ⟨b, t, hbt, by omega⟩, ?_⟩
  intro rest fuel hfuel
  have h1 : (1 : Nat) ≤ fuel := by omega
  simpa [flatItemEnc] using decode_next_flat (.string s) rest fuel hs h1

theorem valP_int (i : Int) (hlo : -(2 ^ 63) ≤ i) (hhi : i < 2 ^ 63) :
    ValP (105 :: intDigits i ++ [101]) := by
  refine ⟨.integer i, [], Or.inl rfl, ⟨105, intDigits i ++ [101], by simp, by omega⟩, ?_⟩
  intro rest fuel hfuel
  have h1 : (1 : Nat) ≤ fuel := by omega
  simpa [flatItemEnc] using decode_next_flat (.integer i) rest fuel ⟨hlo, hhi⟩ h1

theorem valP_list (body : List Nat) (ih : ElemsP body) :
    ValP (108 :: body ++ [101]) := by
  obtain ⟨vals, s, hs, hloop⟩ := ih
  refine ⟨.list vals, s ++ [101], ?_, ⟨108, body ++ [101], by simp, by omega⟩, ?_⟩
  · rcases hs with rfl | ⟨t, rfl⟩
    · exact Or.inr ⟨[], by simp⟩
    · exact Or.inr ⟨t ++ [101], by simp⟩
  · intro rest fuel hfuel
    obtain ⟨f, rfl⟩ : ∃ f, fuel = f + 1 := ⟨fuel - 1, by omega⟩
    simp only [List.length_append, List.length_cons] at hfuel
    have hdata : (108 :: body ++ [101]) ++ rest = 108 :: (body ++ 101 :: rest) := by
      simp
    rw [hdata]
    simp only [decode_next]
    rw [if_pos trivial]
    have hl := hloop [] rest f (by omega)
    simp only [hl]
    simp

theorem valP_dict (body : List Nat) (ih : EntriesP body) :
    ValP (100 :: body ++ [101]) := by
  obtain ⟨entrs, s, hs, hloop⟩ := ih
  refine ⟨.dict (entrs.foldl (fun m kv => insertKV m kv.1 kv.2) []), s ++ [101], ?_,
    ⟨100, body ++ [101], by simp, by omega⟩, ?_⟩
  · rcases hs with rfl | ⟨t, rfl⟩
    · exact Or.inr ⟨[], by simp⟩
    · exact Or.inr ⟨t ++ [101], by simp⟩
  · intro rest fuel hfuel
    obtain ⟨f, rfl⟩ : ∃ f, fuel = f + 1 := ⟨fuel - 1, by omega⟩
    simp only [List.length_append, List.length_cons] at hfuel
    have hdata : (100 :: body ++ [101]) ++ rest = 100 :: (body ++ 101 :: rest) := by
      simp
    rw [hdata]
    simp only [decode_next]
    rw [if_pos trivial]
    have hl := hloop [] rest f (by omega)
    simp only [hl]
    simp

theorem entriesP_nil : EntriesP [] := by
  refine ⟨[], [], Or.inl rfl, ?_⟩
  intro acc rest fuel hfuel
  obtain ⟨f, rfl⟩ : ∃ f, fuel = f + 1 := ⟨fuel - 1, by omega⟩
  simp [decode_dict_loop]

theorem entriesP_cons (k venc rest1 : List Nat) (hk : k.length < 2 ^ 64)
    (ihv : ValP venc) (ihe : EntriesP rest1) :
    EntriesP (strEnc k ++ venc ++ rest1) := by
  obtain ⟨val, sv, hsv, ⟨b0, t0, hb0, hb0ne⟩, hval⟩ := ihv
  obtain ⟨entrs, se, hse, hloop⟩ := ihe
  obtain ⟨d, t, hdt, hd1, hd2⟩ := strEnc_head k
  have hsk2 : 2 ≤ (strEnc k).length := strEnc_len k
  rcases hsv with rfl | ⟨tv, rfl⟩
  · refine ⟨(k, val) :: entrs, se, hse, ?_⟩
    intro acc rest fuel hfuel
    obtain ⟨f, rfl⟩ : ∃ f, fuel = f + 1 := ⟨fuel - 1, by omega⟩
    simp only [List.length_append, List.length_cons] at hfuel
    have hdata : (strEnc k ++ venc ++ rest1) ++ 101 :: rest =
        d :: (t ++ (venc ++ (rest1 ++ 101 :: rest))) := by
      rw [hdt]
      simp
    rw [hdata]
    simp only [decode_dict_loop]
    rw [if_neg (by omega : ¬d = 101)]
    have hstr : decode_string (d :: (t ++ (venc ++ (rest1 ++ 101 :: rest)))) =
        some (k, venc ++ (rest1 ++ 101 :: rest)) := by
      have h1 := decode_string_spec k (venc ++ (rest1 ++ 101 :: rest)) hk
      rw [hdt] at h1
      simpa using h1
    simp only [hstr]
    have hnext := hval (rest1 ++ 101 :: rest) f
      (by simp only [List.length_append, List.length_cons]; omega)
    rw [List.nil_append] at hnext
    simp only [hnext]
    have hl := hloop (insertKV acc k val) rest f (by omega)
    simp only [hl]
    simp
  · refine ⟨[(k, val)], 101 :: (tv ++ rest1), Or.inr ⟨_, rfl⟩, ?_⟩
    intro acc rest fuel hfuel
    obtain ⟨f, rfl⟩ : ∃ f, fuel = f + 1 := ⟨fuel - 1, by omega⟩
    simp only [List.length_append, List.length_cons] at hfuel
    have hdata : (strEnc k ++ venc ++ rest1) ++ 101 :: rest =
        d :: (t ++ (venc ++ (rest1 ++ 101 :: rest))) := by
      rw [hdt]
      simp
    rw [hdata]
    simp only [decode_dict_loop]
    rw [if_neg (by omega : ¬d = 101)]
    have hstr : decode_string (d :: (t ++ (venc ++ (rest1 ++ 101 :: rest)))) =
        some (k, venc ++ (rest1 ++ 101 :: rest)) := by
      have h1 := decode_string_spec k (venc ++ (rest1 ++ 101 :: rest)) hk
      rw [hdt] at h1
      simpa using h1
    simp only [hstr]
    have hnext := hval (rest1 ++ 101 :: rest) f
      (by simp only [List.length_append, List.length_cons]; omega)
    simp only [List.cons_append] at hnext
    simp only [hnext]
    obtain ⟨f2, rfl⟩ : ∃ f2, f = f2 + 1 := ⟨f - 1, by omega⟩
    simp only [decode_dict_loop]
    rw [if_pos trivial]
    simp

theorem elemsP_nil : ElemsP [] := by
  refine ⟨[], [], Or.inl rfl, ?_⟩
  intro acc rest fuel hfuel
  obtain ⟨f, rfl⟩ : ∃ f, fuel = f + 1 := ⟨fuel - 1, by omega⟩
  simp [decode_list_loop]

theorem elemsP_cons (venc rest1 : List Nat) (ihv : ValP venc) (ihe : ElemsP rest1) :
    ElemsP (venc ++ rest1) := by
  obtain ⟨val, sv, hsv, ⟨b0, t0, hb0, hb0ne⟩, hval⟩ := ihv
  obtain ⟨vals, se, hse, hloop⟩ := ihe
  have hv1 : venc.length = t0.length + 1 := by rw [hb0]; simp
  rcases hsv with rfl | ⟨tv, rfl⟩
  · refine ⟨val :: vals, se, hse, ?_⟩
    intro acc rest fuel hfuel
    obtain ⟨f, rfl⟩ : ∃ f, fuel = f + 1 := ⟨fuel - 1, by omega⟩
    simp only [List.length_append, List.length_cons] at hfuel
    have hdata : (venc ++ rest1) ++ 101 :: rest = b0 :: (t0 ++ (rest1 ++ 101 :: rest)) := by
      rw [hb0]
      simp
    rw [hdata]
    simp only [decode_list_loop]
    rw [if_neg hb0ne]
    have hnext := hval (rest1 ++ 101 :: rest) f
      (by simp only [List.length_append, List.length_cons]; omega)
    rw [hb0] at hnext
    simp only [List.cons_append, List.nil_append] at hnext
    simp only [hnext]
    have hl := hloop (acc ++ [val]) rest f (by omega)
    simp only [hl]
    simp
  · refine ⟨[val], 101 :: (tv ++ rest1), Or.inr ⟨_, rfl⟩, ?_⟩
    intro acc rest fuel hfuel
    obtain ⟨f, rfl⟩ : ∃ f, fuel = f + 1 := ⟨fuel - 1, by omega⟩
    simp only [List.length_append, List.length_cons] at hfuel
    have hdata : (venc ++ rest1) ++ 101 :: rest = b0 :: (t0 ++ (rest1 ++ 101 :: rest)) := by
      rw [hb0]
      simp
    rw [hdata]
    simp only [decode_list_loop]
    rw [if_neg hb0ne]
    have hnext := hval (rest1 ++ 101 :: rest) f
      (by simp only [List.length_append, List.length_cons]; omega)
    rw [hb0] at hnext
    simp only [List.cons_append] at hnext
    simp only [hnext]
    obtain ⟨f2, rfl⟩ : ∃ f2, f = f2 + 1 := ⟨f - 1, by omega⟩
    simp only [decode_list_loop]
    rw [if_pos trivial]
    simp

theorem encAdequate : ∀ (tag : Nat) (enc : List Nat), Enc tag enc → AdeqP tag enc := by
  intro tag enc h
  induction h with
  | str s hs => exact valP_str s hs
  | int i hlo hhi => exact valP_int i hlo hhi
  | list body hb ih => exact valP_list body ih
  | dict body hb ih => exact valP_dict body ih
  | enil => exact entriesP_nil
  | econs k venc rest hk hv he ihv ihe => exact entriesP_cons k venc rest hk ihv ihe
  | lnil => exact elemsP_nil
  | lcons venc rest hv he ihv ihe => exact elemsP_cons venc rest ihv ihe

/-! ### Termination: the supplied fuel is never exhausted

Every successful step of the decoder consumes buffer bytes: a parsed string
eats at least its length digit and colon, a parsed integer at least three
bytes, and every loop iteration at least the bytes of one parsed item.  The
fuel counter decreases once per recursive call, and at most two calls happen
per consumed byte, so linear fuel suffices. -/

theorem parseUsize_some_ne_nil (bs : List Nat) (n : Nat)
    (h : parseUsize bs = some n) : bs ≠ [] := by
  intro hnil
  subst hnil
  simp [parseUsize, digitsOk] at h

theorem parseI64_some_ne_nil (bs : List Nat) (i : Int)
    (h : parseI64 bs = some i) : bs ≠ [] := by
  intro hnil
  subst hnil
  simp [parseI64, digitsOk] at h

theorem decode_string_some_length (data s r : List Nat)
    (h : decode_string data = some (s, r)) : r.length + 2 ≤ data.length := by
  simp only [decode_string] at h
  cases hf : findByte 58 data with
  | none => simp only [hf] at h; exact Option.noConfusion h
  | some sep =>
    simp only [hf] at h
    cases hp : parseUsize (data.take sep) with
    | none => simp only [hp] at h; exact Option.noConfusion h
    | some len =>
      simp only [hp] at h
      by_cases hle : len ≤ (data.drop (sep + 1)).length
      · rw [if_pos hle] at h
        simp only [Option.some.injEq, Prod.mk.injEq] at h
        obtain ⟨hs, hr⟩ := h
        have hsep := findByte_some_lt 58 data sep hf
        have hne := parseUsize_some_ne_nil (data.take sep) len hp
        have hs1 : sep ≠ 0 := by
          intro h0
          exact hne (by rw [h0]; simp)
        subst hr
        simp only [List.length_drop] at hle ⊢
        omega
      · rw [if_neg hle] at h
        simp at h

theorem decode_integer_some_length (data : List Nat) (i : Int) (r : List Nat)
    (h : decode_integer data = some (i, r)) : r.length + 3 ≤ data.length := by
  cases data with
  | nil => simp [decode_integer] at h
  | cons b tail =>
    simp only [decode_integer] at h
    cases hf : findByte 101 tail with
    | none => simp only [hf] at h; exact Option.noConfusion h
    | some idx =>
      simp only [hf] at h
      cases hp : parseI64 (tail.take idx) with
      | none => simp only [hp] at h; exact Option.noConfusion h
      | some v =>
        simp only [hp, Option.some.injEq, Prod.mk.injEq] at h
        obtain ⟨hv, hr⟩ := h
        have hidx := findByte_some_lt 101 tail idx hf
        have hne := parseI64_some_ne_nil (tail.take idx) v hp
        have hi1 : idx ≠ 0 := by
          intro h0
          exact hne (by rw [h0]; simp)
        subst hr
        simp only [List.length_drop, List.length_cons]
        omega

theorem decode_lengths (fuel : Nat) :
    (∀ data v r, decode_next fuel data = PRes.ok v r → r.length < data.length) ∧
    (∀ data acc d r, decode_dict_loop fuel data acc = PRes.ok d r →
      r.length ≤ data.length) ∧
    (∀ data acc l r, decode_list_loop fuel data acc = PRes.ok l r →
      r.length ≤ data.length) := by
  induction fuel with
  | zero =>
    refine ⟨?_, ?_, ?_⟩
    · intro data v r h; simp [decode_next] at h
    · intro data acc d r h; simp [decode_dict_loop] at h
    · intro data acc l r h; simp [decode_list_loop] at h
  | succ f ih =>
    obtain ⟨ihn, ihd, ihl⟩ := ih
    refine ⟨?_, ?_, ?_⟩
    · intro data v r h
      cases data with
      | nil => simp [decode_next] at h
      | cons b tail =>
        simp only [decode_next] at h
        split at h
        · split at h
          · simp at h
          · rename_i v0 rest0 heq
            simp only [PRes.ok.injEq] at h
            obtain ⟨hv, hr⟩ := h
            have := decode_integer_some_length (b :: tail) v0 rest0 heq
            subst hr
            omega
        · split at h
          · split at h
            · rename_i l0 rest0 heq
              simp only [PRes.ok.injEq] at h
              obtain ⟨hv, hr⟩ := h
              have := ihl tail [] l0 rest0 heq
              subst hr
              simp only [List.length_cons]
              omega
            · simp at h
            · simp at h
          · split at h
            · split at h
              · rename_i d0 rest0 heq
                simp only [PRes.ok.injEq] at h
                obtain ⟨hv, hr⟩ := h
                have := ihd tail [] d0 rest0 heq
                subst hr
                simp only [List.length_cons]
                omega
              · simp at h
              · simp at h
            · split at h
              · simp at h
              · rename_i s0 rest0 heq
                simp only [PRes.ok.injEq] at h
                obtain ⟨hv, hr⟩ := h
                have := decode_string_some_length (b :: tail) s0 rest0 heq
                subst hr
                omega
    · intro data acc d r h
      cases data with
      | nil => simp [decode_dict_loop] at h
      | cons b tail =>
        simp only [decode_dict_loop] at h
        split at h
        · simp only [PRes.ok.injEq] at h
          obtain ⟨hd, hr⟩ := h
          subst hr
          exact le_rfl
        · split at h
          · simp at h
          · rename_i key rest1 heqs
            split at h
            · rename_i v0 rest2 heqn
              have h1 := ihd rest2 (insertKV acc key v0) d r h
              have h2 := ihn rest1 v0 rest2 heqn
              have h3 := decode_string_some_length (b :: tail) key rest1 heqs
              simp only [List.length_cons] at h3 ⊢
              omega
            · simp at h
            · simp at h
    · intro data acc l r h
      cases data with
      | nil => simp [decode_list_loop] at h
      | cons b tail =>
        simp only [decode_list_loop] at h
        split at h
        · simp only [PRes.ok.injEq] at h
          obtain ⟨hl, hr⟩ := h
          subst hr
          exact le_rfl
        · split at h
          · rename_i v0 rest0 heqn
            have h1 := ihl rest0 (acc ++ [v0]) l r h
            have h2 := ihn (b :: tail) v0 rest0 heqn
            omega
          · simp at h
          · simp at h

theorem decode_noFuel (fuel : Nat) :
    (∀ data, 2 * data.length + 1 ≤ fuel → decode_next fuel data ≠ PRes.outOfFuel) ∧
    (∀ data acc, 2 * data.length + 2 ≤ fuel →
      decode_dict_loop fuel data acc ≠ PRes.outOfFuel) ∧
    (∀ data acc, 2 * data.length + 2 ≤ fuel →
      decode_list_loop fuel data acc ≠ PRes.outOfFuel) := by
  induction fuel with
  | zero =>
    refine ⟨?_, ?_, ?_⟩
    · intro data hle _; omega
    · intro data acc hle _; omega
    · intro data acc hle _; omega
  | succ f ih =>
    obtain ⟨ihn, ihd, ihl⟩ := ih
    refine ⟨?_, ?_, ?_⟩
    · intro data hle h
      cases data with
      | nil => simp [decode_next] at h
      | cons b tail =>
        simp only [List.length_cons] at hle
        simp only [decode_next] at h
        split at h
        · split at h
          · simp at h
          · simp at h
        · split at h
          · split at h
            · simp at h
            · simp at h
            · rename_i heq
              exact ihl tail [] (by omega) heq
          · split at h
            · split at h
              · simp at h
              · simp at h
              · rename_i heq
                exact ihd tail [] (by omega) heq
            · split at h
              · simp at h
              · simp at h
    · intro data acc hle h
      cases data with
      | nil => simp [decode_dict_loop] at h
      | cons b tail =>
        simp only [List.length_cons] at hle
        simp only [decode_dict_loop] at h
        split at h
        · simp at h
        · split at h
          · simp at h
          · rename_i key rest1 heqs
            have h3 := decode_string_some_length (b :: tail) key rest1 heqs
            simp only [List.length_cons] at h3
            split at h
            · rename_i v0 rest2 heqn
              have h2 := (decode_lengths f).1 rest1 v0 rest2 heqn
              exact ihd rest2 (insertKV acc key v0) (by omega) h
            · simp at h
            · rename_i heqn
              exact ihn rest1 (by omega) heqn
    · intro data acc hle h
      cases data with
      | nil => simp [decode_list_loop] at h
      | cons b tail =>
        simp only [List.length_cons] at hle
        simp only [decode_list_loop] at h
        split at h
        · simp at h
        · split at h
          · rename_i v0 rest0 heqn
            have h2 := (decode_lengths f).1 (b :: tail) v0 rest0 heqn
            simp only [List.length_cons] at h2
            exact ihl rest0 (acc ++ [v0]) (by omega) h
          · simp at h
          · rename_i heqn
            exact ihn (b :: tail) (by simp only [List.length_cons]; omega) heqn

/-! ### Lookup after repeated insertion -/

theorem lookupKV_insertKV (m : List (List Nat × BencodingValue)) (k : List Nat)
    (v : BencodingValue) (q : List Nat) :
    lookupKV (insertKV m k v) q = if k = q then some v else lookupKV m q := by
  induction m with
  | nil =>
    by_cases hkq : k = q <;> simp [insertKV, lookupKV, hkq]
  | cons ab m ih =>
    obtain ⟨a, b⟩ := ab
    by_cases hak : a = k
    · subst hak
      by_cases haq : a = q <;> simp [insertKV, lookupKV, haq]
    · by_cases haq : a = q
      · subst haq
        have hka : ¬k = a := fun hc => hak hc.symm
        simp [insertKV, lookupKV, hak, hka]
      · simp [insertKV, lookupKV, hak, haq, ih]

theorem lookupKV_foldl_insert (entries : List (List Nat × BencodingValue))
    (init : List (List Nat × BencodingValue)) (q : List Nat) :
    lookupKV (entries.foldl (fun m kv => insertKV m kv.1 kv.2) init) q =
      entries.foldl (fun acc kv => if kv.1 = q then some kv.2 else acc)
        (lookupKV init q) := by
  induction entries generalizing init with
  | nil => rfl
  | cons kv entries ih =>
    obtain ⟨a, b⟩ := kv
    simp only [List.foldl_cons]
    rw [ih (insertKV init a b), lookupKV_insertKV]

/-! ### Flat containers are decoded element by element, in order -/

theorem flatItemEnc_len (v : BencodingValue) (hv : FlatOk v) :
    2 ≤ (flatItemEnc v).length := by
  cases v with
  | string s => exact strEnc_len s
  | integer i =>
    simp only [flatItemEnc, List.length_append, List.length_cons]
    omega
  | dict d => exact hv.elim
  | list l => exact hv.elim

theorem flatItemEnc_head (v : BencodingValue) (hv : FlatOk v) :
    ∃ b t, flatItemEnc v = b :: t ∧ b ≠ 101 := by
  cases v with
  | string s =>
    obtain ⟨b, t, hbt, hb1, hb2⟩ := strEnc_head s
    exact ⟨b, t, hbt, by omega⟩
  | integer i =>
    exact ⟨105, intDigits i ++ [101], by simp [flatItemEnc], by omega⟩
  | dict d => exact hv.elim
  | list l => exact hv.elim

theorem flat_dict_loop :
    ∀ (entries : List (List Nat × BencodingValue))
      (acc : List (List Nat × BencodingValue)) (rest : List Nat) (fuel : Nat),
      (∀ kv ∈ entries, kv.1.length < 2 ^ 64 ∧ FlatOk kv.2) →
      2 * ((concatAll (entries.map (fun kv => strEnc kv.1 ++ flatItemEnc kv.2))).length
        + rest.length) + 4 ≤ fuel →
      decode_dict_loop fuel
        (concatAll (entries.map (fun kv => strEnc kv.1 ++ flatItemEnc kv.2))
          ++ 101 :: rest) acc =
        PRes.ok (entries.foldl (fun m kv => insertKV m kv.1 kv.2) acc) (101 :: rest) := by
  intro entries
  induction entries with
  | nil =>
    intro acc rest fuel hflat hfuel
    obtain ⟨f, rfl⟩ : ∃ f, fuel = f + 1 := ⟨fuel - 1, by omega⟩
    simp [concatAll, decode_dict_loop]
  | cons kv entries ih =>
    obtain ⟨k0, v0⟩ := kv
    intro acc rest fuel hflat hfuel
    obtain ⟨f, rfl⟩ : ∃ f, fuel = f + 1 := ⟨fuel - 1, by omega⟩
    have hk : k0.length < 2 ^ 64 := (hflat (k0, v0) (by simp)).1
    have hv : FlatOk v0 := (hflat (k0, v0) (by simp)).2
    have hsk2 : 2 ≤ (strEnc k0).length := strEnc_len k0
    obtain ⟨d, t, hdt, hd1, hd2⟩ := strEnc_head k0
    simp only [List.map_cons, concatAll, List.length_append] at hfuel ⊢
    have hdata : (strEnc k0 ++ flatItemEnc v0)
          ++ concatAll (entries.map (fun kv => strEnc kv.1 ++ flatItemEnc kv.2))
          ++ 101 :: rest =
        d :: (t ++ (flatItemEnc v0
          ++ (concatAll (entries.map (fun kv => strEnc kv.1 ++ flatItemEnc kv.2))
            ++ 101 :: rest))) := by
      rw [hdt]
      simp
    rw [hdata]
    simp only [decode_dict_loop]
    rw [if_neg (by omega : ¬d = 101)]
    have hstr : decode_string (d :: (t ++ (flatItemEnc v0
          ++ (concatAll (entries.map (fun kv => strEnc kv.1 ++ flatItemEnc kv.2))
            ++ 101 :: rest)))) =
        some (k0, flatItemEnc v0
          ++ (concatAll (entries.map (fun kv => strEnc kv.1 ++ flatItemEnc kv.2))
            ++ 101 :: rest)) := by
      have h1 := decode_string_spec k0 (flatItemEnc v0
        ++ (concatAll (entries.map (fun kv => strEnc kv.1 ++ flatItemEnc kv.2))
          ++ 101 :: rest)) hk
      rw [hdt] at h1
      simpa using h1
    simp only [hstr]
    have hnext := decode_next_flat v0
      (concatAll (entries.map (fun kv => strEnc kv.1 ++ flatItemEnc kv.2))
        ++ 101 :: rest) f hv (by omega)
    simp only [hnext]
    have hrec := ih (insertKV acc k0 v0) rest f
      (fun kv hkv => hflat kv (by simp [hkv])) (by omega)
    simp only [hrec]
    simp

theorem flat_list_loop :
    ∀ (elems : List BencodingValue) (acc : List BencodingValue)
      (rest : List Nat) (fuel : Nat),
      (∀ v ∈ elems, FlatOk v) →
      2 * ((concatAll (elems.map flatItemEnc)).length + rest.length) + 4 ≤ fuel →
      decode_list_loop fuel (concatAll (elems.map flatItemEnc) ++ 101 :: rest) acc =
        PRes.ok (acc ++ elems) (101 :: rest) := by
  intro elems
  induction elems with
  | nil =>
    intro acc rest fuel hflat hfuel
    obtain ⟨f, rfl⟩ : ∃ f, fuel = f + 1 := ⟨fuel - 1, by omega⟩
    simp [concatAll, decode_list_loop]
  | cons v0 elems ih =>
    intro acc rest fuel hflat hfuel
    obtain ⟨f, rfl⟩ : ∃ f, fuel = f + 1 := ⟨fuel - 1, by omega⟩
    have hv : FlatOk v0 := hflat v0 (by simp)
    have hlen2 := flatItemEnc_len v0 hv
    obtain ⟨b, t, hbt, hbne⟩ := flatItemEnc_head v0 hv
    simp only [List.map_cons, concatAll, List.length_append] at hfuel ⊢
    have hdata : flatItemEnc v0 ++ concatAll (elems.map flatItemEnc) ++ 101 :: rest =
        b :: (t ++ (concatAll (elems.map flatItemEnc) ++ 101 :: rest)) := by
      rw [hbt]
      simp
    rw [hdata]
    simp only [decode_list_loop]
    rw [if_neg hbne]
    have hnext := decode_next_flat v0
      (concatAll (elems.map flatItemEnc) ++ 101 :: rest) f hv (by omega)
    rw [hbt] at hnext
    simp only [List.cons_append] at hnext
    simp only [hnext]
    have hrec := ih (acc ++ [v0]) rest f (fun v hv2 => hflat v (by simp [hv2]))
      (by omega)
    simp only [hrec]
    simp

/-! ### The claims -/

/-- Claim C1.  The claim states that every malformed input (truncated buffer,
bad string length, unterminated integer, unexpected tag byte) yields a typed
error and that no parser routine panics.  The code does the opposite: on each
malformed family it panics (modelled as none for the leaf routines and the
entry point, PRes.panic for the recursive routines), and no typed error value
exists at all.  The conjuncts evaluate the routines at one concrete input per
malformed family from the claim. -/
theorem claim_C1_malformed_input_panics :
    Bencoding.decode [] = none ∧
    Bencoding.decode [100] = none ∧
    Bencoding.decode [100, 53, 58, 104, 101] = none ∧
    decode_string [49, 58] = none ∧
    decode_string [53] = none ∧
    decode_integer [105, 52, 50] = none ∧
    decode_integer [] = none ∧
    decode_next 5 [120] = PRes.panic ∧
    decode_next 5 [] = PRes.panic ∧
    decode_dict 9 [] = PRes.panic ∧
    decode_list 9 [108] = PRes.panic :=
  ⟨rfl, rfl, rfl, rfl, rfl, rfl, rfl, rfl, rfl, rfl, rfl⟩

/-- Claim C2.  The claim states that integer payloads with a redundant
leading zero, and minus zero, are rejected with an InvalidInteger error.  The
code accepts both: the encoding i03e decodes to the integer three, the
encoding i-0e to zero, and a document containing i03e decodes without any
failure.  (The source itself carries a TODO comment stating these forms are
invalid.) -/
theorem claim_C2_noncanonical_integers_accepted :
    decode_integer [105, 48, 51, 101] = some (3, []) ∧
    decode_integer [105, 45, 48, 101] = some (0, []) ∧
    Bencoding.decode [100, 49, 58, 97, 105, 48, 51, 101, 101] =
      some (Except.ok ⟨[([97], BencodingValue.integer 3)]⟩) :=
  ⟨rfl, rfl, rfl⟩

/-- Claim C3.  Decoding the buffer d5:hello5:worlde succeeds and get applied
to the key hello returns the byte string world. -/
theorem claim_C3_hello_world :
    decodeGet [100, 53, 58, 104, 101, 108, 108, 111, 53, 58, 119, 111, 114, 108, 100, 101]
      [104, 101, 108, 108, 111] =
      some (some (BencodingValue.string [119, 111, 114, 108, 100])) := rfl

/-- Claim C4.  For every buffer that begins with a complete well formed
dictionary encoding (leading letter d, a well formed body, terminating
letter e), appending arbitrary extra bytes neither changes the decoded
document nor causes a failure. -/
theorem claim_C4_trailing_bytes_ignored (body extra : List Nat) (h : Enc 1 body) :
    Bencoding.decode ((100 :: body ++ [101]) ++ extra) =
      Bencoding.decode (100 :: body ++ [101]) ∧
    ∃ doc : Bencoding,
      Bencoding.decode ((100 :: body ++ [101]) ++ extra) = some (Except.ok doc) := by
  have hE : EntriesP body := encAdequate 1 body h
  obtain ⟨entrs, s, hs, hloop⟩ := hE
  have key : ∀ ex : List Nat, Bencoding.decode (100 :: (body ++ 101 :: ex)) =
      some (Except.ok ⟨entrs.foldl (fun m kv => insertKV m kv.1 kv.2) []⟩) := by
    intro ex
    have hl := hloop [] ex (2 * (100 :: (body ++ 101 :: ex)).length + 2)
      (by simp only [List.length_cons, List.length_append]; omega)
    simp only [Bencoding.decode, decode_dict, hl]
  have hsh : ∀ ex : List Nat, (100 :: body ++ [101]) ++ ex = 100 :: (body ++ 101 :: ex) := by
    intro ex
    simp
  constructor
  · rw [hsh extra, show (100 :: body ++ [101]) = 100 :: (body ++ 101 :: ([] : List Nat)) by simp,
      key extra, key []]
  · exact ⟨_, by rw [hsh extra]; exact key extra⟩

/-- Witness for claim C4: the dictionary d5:hello5:worlde with two junk
bytes appended decodes to the same document as without them, without
failure. -/
theorem claim_C4_witness :
    Bencoding.decode ((100 :: (strEnc [104, 101, 108, 108, 111]
        ++ strEnc [119, 111, 114, 108, 100] ++ []) ++ [101]) ++ [120, 121]) =
      Bencoding.decode (100 :: (strEnc [104, 101, 108, 108, 111]
        ++ strEnc [119, 111, 114, 108, 100] ++ []) ++ [101]) ∧
    ∃ doc : Bencoding,
      Bencoding.decode ((100 :: (strEnc [104, 101, 108, 108, 111]
        ++ strEnc [119, 111, 114, 108, 100] ++ []) ++ [101]) ++ [120, 121]) =
        some (Except.ok doc) :=
  claim_C4_trailing_bytes_ignored
    (strEnc [104, 101, 108, 108, 111] ++ strEnc [119, 111, 114, 108, 100] ++ [])
    [120, 121]
    (Enc.econs [104, 101, 108, 108, 111] (strEnc [119, 111, 114, 108, 100]) []
      (by decide) (Enc.str [119, 111, 114, 108, 100] (by decide)) Enc.enil)

/-- Claim C5, counterexample.  The claim states that whenever a dictionary
encoding repeats a key, the decoded mapping holds the value of the last
occurrence.  The well formed dictionary d1:ade1:ai1ee repeats the key a:
first an empty dictionary, last the integer one.  Because the inner
dictionary never consumes its terminating letter e, the outer loop stops at
that byte, so the decoded mapping holds the FIRST occurrence (the empty
dictionary), not the integer. -/
theorem claim_C5_counterexample :
    Enc 1 [49, 58, 97, 100, 101, 49, 58, 97, 105, 49, 101] ∧
    decodeGet [100, 49, 58, 97, 100, 101, 49, 58, 97, 105, 49, 101, 101] [97] =
      some (some (BencodingValue.dict [])) ∧
    decodeGet [100, 49, 58, 97, 100, 101, 49, 58, 97, 105, 49, 101, 101] [97] ≠
      some (some (BencodingValue.integer 1)) := by
  refine ⟨?_, rfl, ?_⟩
  · show Enc 1 (strEnc [97] ++ ((100 :: []) ++ [101])
      ++ (strEnc [97] ++ ((105 :: intDigits 1) ++ [101]) ++ []))
    exact Enc.econs [97] ((100 :: []) ++ [101])
      (strEnc [97] ++ ((105 :: intDigits 1) ++ [101]) ++ [])
      (by decide) (Enc.dict [] Enc.enil)
      (Enc.econs [97] ((105 :: intDigits 1) ++ [101]) [] (by decide)
        (Enc.int 1 (by decide) (by decide)) Enc.enil)
  · intro hc
    rw [show decodeGet [100, 49, 58, 97, 100, 101, 49, 58, 97, 105, 49, 101, 101] [97] =
        some (some (BencodingValue.dict [])) from rfl] at hc
    simp at hc

/-- Claim C5 as amended.  For dictionary encodings whose values are all flat
(byte strings or integers, so that no nested container can cut the loop
short), the decoded mapping associates a repeated key with the value of its
last occurrence; earlier values for that key are discarded.  The right hand
side folds the entries left to right keeping the latest value for the
queried key. -/
theorem claim_C5_last_occurrence_wins (entries : List (List Nat × BencodingValue))
    (q : List Nat)
    (hflat : ∀ kv ∈ entries, kv.1.length < 2 ^ 64 ∧ FlatOk kv.2) :
    decodeGet (100 :: concatAll (entries.map (fun kv => strEnc kv.1 ++ flatItemEnc kv.2))
        ++ [101]) q =
      some (entries.foldl (fun acc kv => if kv.1 = q then some kv.2 else acc) none) := by
  have hdata : 100 :: concatAll (entries.map (fun kv => strEnc kv.1 ++ flatItemEnc kv.2))
      ++ [101] =
      100 :: (concatAll (entries.map (fun kv => strEnc kv.1 ++ flatItemEnc kv.2))
        ++ 101 :: ([] : List Nat)) := by
    simp
  rw [hdata]
  have hl := flat_dict_loop entries [] []
    (2 * (100 :: (concatAll (entries.map (fun kv => strEnc kv.1 ++ flatItemEnc kv.2))
      ++ 101 :: ([] : List Nat))).length + 2) hflat
    (by simp only [List.length_cons, List.length_append]; omega)
  simp only [decodeGet, Bencoding.decode, decode_dict, hl, Bencoding.get]
  rw [lookupKV_foldl_insert]
  rfl

/-- Witness for the amended claim C5: the flat dictionary d1:a1:x1:a1:ye
repeats the key a with string values x then y; get returns y. -/
theorem claim_C5_witness :
    decodeGet [100, 49, 58, 97, 49, 58, 120, 49, 58, 97, 49, 58, 121, 101] [97] =
      some (some (BencodingValue.string [121])) :=
  claim_C5_last_occurrence_wins
    [([97], BencodingValue.string [120]), ([97], BencodingValue.string [121])] [97]
    (by
      intro kv hkv
      simp only [List.mem_cons, List.not_mem_nil, or_false] at hkv
      rcases hkv with rfl | rfl
      · exact ⟨by decide, by show ([120] : List Nat).length < 2 ^ 64; decide⟩
      · exact ⟨by decide, by show ([121] : List Nat).length < 2 ^ 64; decide⟩)

/-- Claim C6.  The string routine applies no text decoding: on a well formed
length prefixed string, the payload bytes after the colon are returned
exactly as they stand, whatever bytes they are, and no failure occurs. -/
theorem claim_C6_payload_preserved_exactly (s rest : List Nat)
    (hs : s.length < 2 ^ 64) :
    decode_string (strEnc s ++ rest) = some (s, rest) :=
  decode_string_spec s rest hs

/-- Witness for claim C6: the five bytes the specification names, invalid as
UTF-8 text, come back byte for byte. -/
theorem claim_C6_witness :
    decode_string (strEnc [171, 163, 218, 137, 252] ++ [101]) =
      some ([171, 163, 218, 137, 252], [101]) :=
  claim_C6_payload_preserved_exactly [171, 163, 218, 137, 252] [101] (by decide)

/-- Claim C7.  The list routine preserves element order: decoding a list of
flat elements returns exactly those elements, the element parsed i-th at
index i. -/
theorem claim_C7_list_order (elems : List BencodingValue) (rest : List Nat)
    (fuel : Nat) (hflat : ∀ v ∈ elems, FlatOk v)
    (hfuel : 2 * ((concatAll (elems.map flatItemEnc)).length + rest.length) + 4 ≤ fuel) :
    decode_list fuel ((108 :: concatAll (elems.map flatItemEnc)) ++ 101 :: rest) =
      PRes.ok elems (101 :: rest) := by
  rw [show (108 :: concatAll (elems.map flatItemEnc)) ++ 101 :: rest =
      108 :: (concatAll (elems.map flatItemEnc) ++ 101 :: rest) by simp]
  simp only [decode_list]
  have h := flat_list_loop elems [] rest fuel hflat hfuel
  simpa using h

/-- Witness for claim C7: the encoding l5:elem1i42ee from the specification
decodes to the byte string elem1 followed by the integer forty two, in that
order. -/
theorem claim_C7_witness :
    decode_list 40 [108, 53, 58, 101, 108, 101, 109, 49, 105, 52, 50, 101, 101] =
      PRes.ok [BencodingValue.string [101, 108, 101, 109, 49],
        BencodingValue.integer 42] [101] :=
  claim_C7_list_order
    [BencodingValue.string [101, 108, 101, 109, 49], BencodingValue.integer 42] [] 40
    (by
      intro v hv
      simp only [List.mem_cons, List.not_mem_nil, or_false] at hv
      rcases hv with rfl | rfl
      · show ([101, 108, 101, 109, 49] : List Nat).length < 2 ^ 64
        decide
      · exact ⟨by decide, by decide⟩)
    (by decide)

/-- Claim C8.  Decoding terminates on every finite buffer: fuel linear in
the buffer length is never exhausted, because every loop iteration and every
recursive call consumes buffer bytes or stops.  The fuel here is the one the
entry point supplies. -/
theorem claim_C8_decoding_terminates (data : List Nat) :
    decode_next (2 * data.length + 2) data ≠ PRes.outOfFuel ∧
    decode_dict (2 * data.length + 2) data ≠ PRes.outOfFuel ∧
    decode_list (2 * data.length + 2) data ≠ PRes.outOfFuel := by
  refine ⟨?_, ?_, ?_⟩
  · exact (decode_noFuel _).1 data (by omega)
  · cases data with
    | nil => simp [decode_dict]
    | cons b tail =>
      simp only [decode_dict]
      exact (decode_noFuel _).2.1 tail [] (by simp only [List.length_cons]; omega)
  · cases data with
    | nil => simp [decode_list]
    | cons b tail =>
      simp only [decode_list]
      exact (decode_noFuel _).2.2 tail [] (by simp only [List.length_cons]; omega)

/-- Claim C9.  The error enum of the source has no variants, so no error
value exists, and whenever decode returns at all (does not panic), the
result is the Ok constructor. -/
theorem claim_C9_no_error_value :
    (BencodingError → False) ∧
    ∀ data : List Nat, Bencoding.decode data = none ∨
      ∃ doc : Bencoding, Bencoding.decode data = some (Except.ok doc) := by
  constructor
  · exact fun e => nomatch e
  · intro data
    cases h : decode_dict (2 * data.length + 2) data with
    | ok d r => exact Or.inr ⟨⟨d⟩, by simp [Bencoding.decode, h]⟩
    | panic => exact Or.inl (by simp [Bencoding.decode, h])
    | outOfFuel => exact Or.inl (by simp [Bencoding.decode, h])

/-- Claim C10.  The first byte of the buffer is skipped without ever being
compared with the letter d: every buffer of length at least two whose second
byte is the letter e decodes, whatever its first byte, to a document with an
empty top level mapping. -/
theorem claim_C10_first_byte_never_checked (b0 : Nat) (rest : List Nat) :
    Bencoding.decode (b0 :: 101 :: rest) = some (Except.ok ⟨[]⟩) := by
  have hl : decode_dict_loop (2 * (b0 :: 101 :: rest).length + 2) (101 :: rest) [] =
      PRes.ok [] (101 :: rest) := by
    have hsucc : 2 * (b0 :: 101 :: rest).length + 2 = (2 * rest.length + 5) + 1 := by
      simp only [List.length_cons]
      ring
    rw [hsucc]
    simp [decode_dict_loop]
  simp only [Bencoding.decode, decode_dict, hl]

end BencodingParser
